import Mathlib

/-!
# OrderedList (src/orderedlist.h) — shallow embedding

The repository implements `test::OrderedList<T, Comparator>`: a sorted
singly-linked list with a sentinel head node, comparator-driven search
helpers (`FindGreaterOrEqual`, `FindLessThan`, `FindLast`), `Insert`,
`Contains`, and a bidirectional `Iterator`.

Embedding choices, from the source:

* Keys are `ℕ`, matching the only instantiation in the repository
  (`orderedlist_test.cc` uses `uint32_t`); the code only ever compares
  keys, so no modular arithmetic arises.
* `compare_` is the comparator of `orderedlist_test.cc`:
  `if (a < b) return -1; return static_cast<int>(a != b);`.
* A list state is `elems : List ℕ`, the keys stored after the sentinel, in
  chain order.  The full pointer chain is `chain elems = headKey :: elems`
  (the constructor builds the sentinel with `NewNode(0)`, so the sentinel
  carries key `T(0)`).  A `Node*` is an `Option ℕ` chain index
  (`some 0` = the sentinel `head_`, `none` = `nullptr`).
* Undefined behaviour (dereferencing a null pointer) is modelled by
  `Option`: a function that can crash returns `none` in exactly the
  states where the C++ dereferences null.
-/

namespace OrderedList

/-- The comparator of `orderedlist_test.cc`:
`if (a < b) return -1; return static_cast<int>(a != b);`. -/
def compare_ (a b : ℕ) : Int :=
  if a < b then -1 else if a ≠ b then 1 else 0

/-- The sentinel key: the constructor runs `head_(NewNode(0))`, so the head
node is built from the value-initialized key `T(0)`. -/
def headKey : ℕ := 0

/-- The pointer chain reachable from `head_`: the sentinel node followed by
the stored keys in chain order. -/
def chain (elems : List ℕ) : List ℕ := headKey :: elems

/-- `KeyIsAfterNode(key, n)` for a non-null node with key `k`:
`compare_(n->key, key) < 0`. -/
def KeyIsAfterNode (key k : ℕ) : Prop := compare_ k key < 0

/-- The loop of `FindGreaterOrEqual` over the remaining chain suffix.
Returns `(x, prev)` as indices into the traversed list: `x` is the first
node whose key is not ordered-before `key` (`none` when the loop runs off
the chain), `prev` is the last node the loop advanced from (`none` when the
loop never advanced, leaving the caller's `prev == nullptr`). -/
def findGEFrom (key : ℕ) : List ℕ → Option ℕ × Option ℕ
  | [] => (none, none)
  | k :: rest =>
    if compare_ k key < 0 then
      match findGEFrom key rest with
      | (res, prev) => (res.map (· + 1), some (prev.elim 0 (· + 1)))
    else (some 0, none)

/-- `FindGreaterOrEqual(key, &prev)`: the scan starts at `x = head_`, so it
runs over the whole chain, sentinel included.  Indices are into
`chain elems`. -/
def findGreaterOrEqual (key : ℕ) (elems : List ℕ) : Option ℕ × Option ℕ :=
  findGEFrom key (chain elems)

/-- `Contains(key)`: `x = FindGreaterOrEqual(key, nullptr);
return (x != nullptr && Equal(key, x->key));` where
`Equal(a, b) = (compare_(a, b) == 0)`. -/
def Contains (key : ℕ) (elems : List ℕ) : Bool :=
  match (findGreaterOrEqual key elems).1 with
  | none => false
  | some i =>
    match (chain elems).get? i with
    | none => false
    | some v => decide (compare_ key v = 0)

/-- `Insert(key)`: `FindGreaterOrEqual(key, &prev)`, then the new node is
linked after `prev` (`x->NoBarrierSetNext(prev->NoBarrierNext());
prev->SetNext(x);`).  When `prev` is still `nullptr` the code dereferences
a null pointer, modelled as `none`.  A `prev` at chain index `p` makes the
new node the element at position `p` of the stored list.  (The debug-only
`assert(x == nullptr || !Equal(key, x->key))` compiles away in release
builds and is not part of the state transition.) -/
def Insert (key : ℕ) (elems : List ℕ) : Option (List ℕ) :=
  match (findGreaterOrEqual key elems).2 with
  | none => none
  | some p => some (elems.take p ++ key :: elems.drop p)

/-- A sequence of `Insert` calls starting from a given state; `none` as
soon as one call crashes. -/
def insertAll : List ℕ → List ℕ → Option (List ℕ)
  | [], elems => some elems
  | k :: ks, elems =>
    match Insert k elems with
    | none => none
    | some e => insertAll ks e

/-- The loop of `FindLessThan` with the current node at chain index `i` and
the given list the chain suffix after it.  When the suffix is empty the
code evaluates `x->Next()->key` with `x->Next() == nullptr` — undefined
behaviour, modelled as `none`. -/
def findLTFrom (key : ℕ) (i : ℕ) : List ℕ → Option ℕ
  | [] => none
  | k :: rest => if compare_ k key < 0 then findLTFrom key (i + 1) rest else some i

/-- `FindLessThan(key)`: starts at `x = head_` (chain index 0); `none`
models the null-successor dereference. -/
def findLessThan (key : ℕ) (elems : List ℕ) : Option ℕ :=
  findLTFrom key 0 elems

/-- The loop of `FindLast` with the current node at chain index `i` and the
given list the chain suffix after it. -/
def findLastFrom (i : ℕ) : List ℕ → ℕ
  | [] => i
  | _ :: rest => findLastFrom (i + 1) rest

/-- `FindLast()`: walks to the final node; returns `head_` (index 0) on an
empty list. -/
def findLast (elems : List ℕ) : ℕ :=
  findLastFrom 0 elems

/-- `Node::Next()` in index form: the successor of chain index `i`, or
`none` at the end of the chain. -/
def nextIdx (c : List ℕ) (i : ℕ) : Option ℕ :=
  if i + 1 < c.length then some (i + 1) else none

/-- `Iterator::Valid()`: `node_ != nullptr`. -/
def Valid (pos : Option ℕ) : Bool := pos.isSome

/-- `Iterator::Seek(target)`: `node_ = list_->FindGreaterOrEqual(target, nullptr)`. -/
def Seek (target : ℕ) (elems : List ℕ) : Option ℕ :=
  (findGreaterOrEqual target elems).1

/-- `Iterator::SeekToFirst()`: `node_ = list_->head_->Next()`. -/
def SeekToFirst (elems : List ℕ) : Option ℕ :=
  nextIdx (chain elems) 0

/-- `Iterator::SeekToLast()`: `node_ = list_->FindLast(); if (node_ == list_->head_) node_ = nullptr;`. -/
def SeekToLast (elems : List ℕ) : Option ℕ :=
  let i := findLast elems
  if i = 0 then none else some i

/-- `Iterator::Next()` from a valid position `i`:
`node_ = node_->Next()`. -/
def Next (elems : List ℕ) (i : ℕ) : Option ℕ :=
  nextIdx (chain elems) i

/-- `Iterator::Prev()` from a valid position `i`:
`node_ = list_->FindLessThan(node_->key); if (node_ == list_->head_) node_ = nullptr;`.
The outer `Option` is the crash monad: `none` when `FindLessThan`
dereferences a null successor (or when `i` is out of the chain, which
cannot happen for a valid iterator). -/
def Prev (elems : List ℕ) (i : ℕ) : Option (Option ℕ) :=
  match (chain elems).get? i with
  | none => none
  | some k =>
    match findLessThan k elems with
    | none => none
    | some j => some (if j = 0 then none else some j)

/-- Keys visited from a position by repeated `Next()` until invalid, with
fuel (the walk is bounded by the chain length). -/
def forwardFrom (c : List ℕ) : ℕ → Option ℕ → List ℕ
  | 0, _ => []
  | _, none => []
  | fuel + 1, some i =>
    match c.get? i with
    | none => []
    | some k => k :: forwardFrom c fuel (nextIdx c i)

/-- The full forward iteration: `SeekToFirst()` then repeated `Next()`
until invalid, collecting `key()` at each valid position. -/
def forwardKeys (elems : List ℕ) : List ℕ :=
  forwardFrom (chain elems) (chain elems).length (SeekToFirst elems)

/-- Keys visited from a position by repeated `Prev()` until invalid, with
fuel; `none` when a `Prev()` call crashes or the fuel runs out while still
valid. -/
def backwardFrom (elems : List ℕ) : ℕ → Option ℕ → Option (List ℕ)
  | _, none => some []
  | 0, some _ => none
  | fuel + 1, some i =>
    match (chain elems).get? i with
    | none => none
    | some k =>
      match Prev elems i with
      | none => none
      | some pos => (backwardFrom elems fuel pos).map (k :: ·)

/-- The full backward iteration: `SeekToLast()` then repeated `Prev()`
until invalid, collecting `key()` at each valid position. -/
def backwardKeys (elems : List ℕ) : Option (List ℕ) :=
  backwardFrom elems (chain elems).length (SeekToLast elems)

/-- Invariant I1: the chain reachable from `head` is strictly ordered
ascending by the comparator. -/
def chainSorted (elems : List ℕ) : Prop :=
  (chain elems).Chain' (fun a b => compare_ a b < 0)

instance (elems : List ℕ) : Decidable (chainSorted elems) :=
  inferInstanceAs (Decidable ((chain elems).Chain' (fun a b => compare_ a b < 0)))

/-! ## Basic comparator lemmas -/

theorem compare_lt_iff (a b : ℕ) : compare_ a b < 0 ↔ a < b := by
  unfold compare_
  split
  · simp; omega
  · split <;> simp <;> omega

theorem compare_eq_zero_iff (a b : ℕ) : compare_ a b = 0 ↔ a = b := by
  unfold compare_
  split
  · simp; omega
  · split <;> simp_all

/-! ## Characterizing the search loops

`ltRun key l` is the length of the longest prefix of `l` whose keys are all
ordered-before `key`: the number of nodes the `FindGreaterOrEqual` loop
advances past. -/

def ltRun (key : ℕ) : List ℕ → ℕ
  | [] => 0
  | x :: xs => if compare_ x key < 0 then ltRun key xs + 1 else 0

theorem ltRun_le_length (key : ℕ) (l : List ℕ) : ltRun key l ≤ l.length := by
  induction l with
  | nil => simp [ltRun]
  | cons x xs ih =>
    simp only [ltRun, List.length_cons]
    split
    · omega
    · omega

theorem findGEFrom_fst (key : ℕ) (l : List ℕ) :
    (findGEFrom key l).1 =
      if ltRun key l < l.length then some (ltRun key l) else none := by
  induction l with
  | nil => simp [findGEFrom, ltRun]
  | cons x xs ih =>
    simp only [findGEFrom, ltRun, List.length_cons]
    split
    · rw [ih]
      by_cases h : ltRun key xs < xs.length <;> simp [h]
    · simp

theorem findGEFrom_snd (key : ℕ) (l : List ℕ) :
    (findGEFrom key l).2 =
      if ltRun key l = 0 then none else some (ltRun key l - 1) := by
  induction l with
  | nil => simp [findGEFrom, ltRun]
  | cons x xs ih =>
    simp only [findGEFrom, ltRun]
    split
    · rw [ih]
      by_cases h : ltRun key xs = 0 <;> simp [h, Option.elim]
      omega
    · simp

theorem ltRun_take (key : ℕ) (l : List ℕ) :
    ∀ x ∈ l.take (ltRun key l), compare_ x key < 0 := by
  induction l with
  | nil => simp
  | cons y ys ih =>
    simp only [ltRun]
    split
    · intro x hx
      rw [List.take_succ_cons, List.mem_cons] at hx
      rcases hx with rfl | hx
      · assumption
      · exact ih x hx
    · simp

theorem ltRun_get (key : ℕ) (l : List ℕ) (v : ℕ)
    (h : l.get? (ltRun key l) = some v) : ¬ compare_ v key < 0 := by
  induction l with
  | nil => simp [List.get?] at h
  | cons y ys ih =>
    simp only [ltRun] at h ⊢
    by_cases hc : compare_ y key < 0
    · rw [if_pos hc] at h
      rw [List.get?_cons_succ] at h
      exact ih h
    · rw [if_neg hc] at h
      rw [List.get?_cons_zero] at h
      cases h
      exact hc

theorem ltRun_eq_length_iff (key : ℕ) (l : List ℕ) :
    ltRun key l = l.length ↔ ∀ x ∈ l, compare_ x key < 0 := by
  induction l with
  | nil => simp [ltRun]
  | cons y ys ih =>
    simp only [ltRun, List.length_cons, List.mem_cons]
    by_cases hc : compare_ y key < 0
    · rw [if_pos hc]
      constructor
      · intro h x hx
        rcases hx with rfl | hx
        · exact hc
        · exact ih.mp (by omega) x hx
      · intro h
        have := ih.mpr (fun x hx => h x (Or.inr hx))
        omega
    · rw [if_neg hc]
      constructor
      · intro h
        exact absurd h (by omega)
      · intro h
        exact absurd (h y (Or.inl rfl)) hc

theorem compare_headKey_lt_iff (k : ℕ) : compare_ headKey k < 0 ↔ 0 < k := by
  rw [compare_lt_iff]
  rfl

theorem findGEFrom_cons_lt (key k : ℕ) (rest : List ℕ) (h : compare_ k key < 0) :
    findGEFrom key (k :: rest) =
      ((findGEFrom key rest).1.map (· + 1),
       some ((findGEFrom key rest).2.elim 0 (· + 1))) := by
  simp only [findGEFrom, if_pos h]

theorem findGE_fst_chain (key : ℕ) (elems : List ℕ) (hk : compare_ headKey key < 0) :
    (findGreaterOrEqual key elems).1 =
      if ltRun key elems < elems.length then some (ltRun key elems + 1) else none := by
  unfold findGreaterOrEqual chain
  rw [findGEFrom_cons_lt _ _ _ hk]
  show ((findGEFrom key elems).1.map (· + 1)) = _
  rw [findGEFrom_fst]
  by_cases h : ltRun key elems < elems.length <;> simp [h]

theorem findGE_snd_chain (key : ℕ) (elems : List ℕ) (hk : compare_ headKey key < 0) :
    (findGreaterOrEqual key elems).2 = some (ltRun key elems) := by
  unfold findGreaterOrEqual chain
  rw [findGEFrom_cons_lt _ _ _ hk]
  show some ((findGEFrom key elems).2.elim 0 (· + 1)) = _
  rw [findGEFrom_snd]
  by_cases h : ltRun key elems = 0 <;> simp [h, Option.elim]
  omega

theorem findGE_chain_not_lt (key : ℕ) (elems : List ℕ)
    (hk : ¬ compare_ headKey key < 0) :
    findGreaterOrEqual key elems = (some 0, none) := by
  unfold findGreaterOrEqual chain
  simp [findGEFrom, hk]

/-! ## Insert characterization and invariant preservation -/

theorem insert_eq (key : ℕ) (elems : List ℕ) (hk : compare_ headKey key < 0) :
    Insert key elems =
      some (elems.take (ltRun key elems) ++ key :: elems.drop (ltRun key elems)) := by
  unfold Insert
  rw [findGE_snd_chain key elems hk]

theorem insert_crash (key : ℕ) (elems : List ℕ) (hk : ¬ compare_ headKey key < 0) :
    Insert key elems = none := by
  unfold Insert
  rw [findGE_chain_not_lt key elems hk]

theorem lt_of_mem_drop_ltRun (key : ℕ) (elems : List ℕ)
    (hs : elems.Pairwise (· < ·)) (hfresh : key ∉ elems) :
    ∀ y ∈ elems.drop (ltRun key elems), key < y := by
  induction elems with
  | nil => simp
  | cons x xs ih =>
    rw [List.pairwise_cons] at hs
    obtain ⟨hx, hxs⟩ := hs
    have hne : key ≠ x := fun h => hfresh (by simp [h])
    have hfresh' : key ∉ xs := fun h => hfresh (List.mem_cons_of_mem _ h)
    simp only [ltRun]
    by_cases hc : compare_ x key < 0
    · rw [if_pos hc, List.drop_succ_cons]
      exact ih hxs hfresh'
    · rw [if_neg hc, List.drop_zero]
      rw [compare_lt_iff] at hc
      intro y hy
      rcases List.mem_cons.mp hy with rfl | hy
      · omega
      · have := hx y hy
        omega

theorem insert_sorted (key : ℕ) (elems : List ℕ) (hk : compare_ headKey key < 0)
    (hs : elems.Pairwise (· < ·)) (hfresh : key ∉ elems) :
    ∃ e, Insert key elems = some e ∧ e.Pairwise (· < ·) ∧ e.Perm (key :: elems) := by
  refine ⟨_, insert_eq key elems hk, ?_, ?_⟩
  · rw [List.pairwise_append]
    refine ⟨hs.sublist (List.take_sublist _ _), ?_, ?_⟩
    · rw [List.pairwise_cons]
      exact ⟨lt_of_mem_drop_ltRun key elems hs hfresh, hs.sublist (List.drop_sublist _ _)⟩
    · intro a ha b hb
      have ha' : a < key := (compare_lt_iff _ _).mp (ltRun_take key elems a ha)
      rcases List.mem_cons.mp hb with rfl | hb
      · exact ha'
      · exact ha'.trans (lt_of_mem_drop_ltRun key elems hs hfresh b hb)
  · exact (List.perm_middle).trans (by rw [List.take_append_drop])

theorem insertAll_sound (keys : List ℕ) :
    ∀ elems : List ℕ, keys.Nodup → (∀ k ∈ keys, compare_ headKey k < 0) →
      (∀ k ∈ keys, k ∉ elems) → elems.Pairwise (· < ·) →
      ∃ e, insertAll keys elems = some e ∧ e.Pairwise (· < ·) ∧
        e.Perm (keys ++ elems) := by
  induction keys with
  | nil =>
    intro elems _ _ _ hs
    exact ⟨elems, rfl, hs, by simp⟩
  | cons k ks ih =>
    intro elems hnd hpos hdisj hs
    rw [List.nodup_cons] at hnd
    obtain ⟨e1, he1, hs1, hp1⟩ :=
      insert_sorted k elems (hpos k (List.mem_cons_self _ _)) hs
        (hdisj k (List.mem_cons_self _ _))
    obtain ⟨e, he, hse, hpe⟩ := ih e1 hnd.2
      (fun k' hk' => hpos k' (List.mem_cons_of_mem _ hk'))
      (fun k' hk' hmem => by
        rcases List.mem_cons.mp (hp1.mem_iff.mp hmem) with rfl | h
        · exact hnd.1 hk'
        · exact hdisj k' (List.mem_cons_of_mem _ hk') h)
      hs1
    refine ⟨e, ?_, hse, ?_⟩
    · simp [insertAll, he1, he]
    · have h2 : (ks ++ e1).Perm (k :: (ks ++ elems)) :=
        (List.Perm.append_left ks hp1).trans List.perm_middle
      simpa using hpe.trans h2

/-! ## Forward iteration -/

theorem forwardFrom_none (c : List ℕ) (fuel : ℕ) : forwardFrom c fuel none = [] := by
  cases fuel <;> rfl

theorem forwardFrom_eq (c : List ℕ) :
    ∀ fuel i : ℕ, c.length ≤ fuel + i → forwardFrom c fuel (some i) = c.drop i := by
  intro fuel
  induction fuel with
  | zero =>
    intro i h
    rw [List.drop_eq_nil_of_le (by omega)]
    rfl
  | succ fuel ih =>
    intro i h
    simp only [forwardFrom]
    cases hget : c.get? i with
    | none =>
      rw [List.get?_eq_none] at hget
      rw [List.drop_eq_nil_of_le hget]
    | some k =>
      rw [List.get?_eq_getElem?] at hget
      obtain ⟨hlt, hval⟩ := List.getElem?_eq_some_iff.mp hget
      rw [List.drop_eq_getElem_cons hlt]
      by_cases h2 : i + 1 < c.length
      · rw [show nextIdx c i = some (i + 1) from if_pos h2, ih (i + 1) (by omega), hval]
      · rw [show nextIdx c i = none from if_neg h2, forwardFrom_none,
          List.drop_eq_nil_of_le (by omega), hval]

theorem forwardKeys_eq (elems : List ℕ) : forwardKeys elems = elems := by
  cases elems with
  | nil => rfl
  | cons x xs =>
    have h1 : SeekToFirst (x :: xs) = some 1 := by simp [SeekToFirst, nextIdx, chain]
    unfold forwardKeys
    rw [h1, forwardFrom_eq]
    · rfl
    · simp [chain]

/-! ## Contains characterization -/

theorem ltRun_eq_index (elems : List ℕ) (hs : elems.Pairwise (· < ·)) (j v : ℕ)
    (h : elems.get? j = some v) : ltRun v elems = j := by
  induction elems generalizing j with
  | nil => simp [List.get?] at h
  | cons x xs ih =>
    rw [List.pairwise_cons] at hs
    cases j with
    | zero =>
      rw [List.get?_cons_zero] at h
      cases h
      simp [ltRun, compare_lt_iff]
    | succ j =>
      rw [List.get?_cons_succ] at h
      have hv : v ∈ xs := List.get?_mem h
      have hxv : x < v := hs.1 v hv
      simp only [ltRun]
      rw [if_pos ((compare_lt_iff _ _).mpr hxv), ih hs.2 j h]

theorem contains_iff_mem (key : ℕ) (elems : List ℕ)
    (hk : compare_ headKey key < 0) (hs : elems.Pairwise (· < ·)) :
    Contains key elems = true ↔ key ∈ elems := by
  unfold Contains
  rw [findGE_fst_chain key elems hk]
  by_cases h : ltRun key elems < elems.length
  · rw [if_pos h]
    simp only [chain, List.get?_cons_succ]
    cases hget : elems.get? (ltRun key elems) with
    | none =>
      rw [List.get?_eq_none] at hget
      omega
    | some v =>
      simp only [decide_eq_true_iff]
      constructor
      · intro hkv
        rw [compare_eq_zero_iff] at hkv
        subst hkv
        exact List.get?_mem hget
      · intro hmem
        obtain ⟨j, hj⟩ := List.get?_of_mem hmem
        have hj' : ltRun key elems = j := ltRun_eq_index elems hs j key hj
        rw [hj'] at hget
        rw [hget] at hj
        cases hj
        simp [compare_eq_zero_iff]
  · rw [if_neg h]
    simp only [Bool.false_eq_true, false_iff]
    intro hmem
    have hle := ltRun_le_length key elems
    have hlen : ltRun key elems = elems.length := by omega
    have := (ltRun_eq_length_iff key elems).mp hlen key hmem
    rw [compare_lt_iff] at this
    omega

/-! ## FindLessThan, FindLast, Prev -/

theorem findLTFrom_crash (key : ℕ) (l : List ℕ)
    (h : ∀ y ∈ l, compare_ y key < 0) : ∀ i, findLTFrom key i l = none := by
  induction l with
  | nil => intro i; rfl
  | cons x xs ih =>
    intro i
    simp only [findLTFrom]
    rw [if_pos (h x (List.mem_cons_self _ _))]
    exact ih (fun y hy => h y (List.mem_cons_of_mem _ hy)) (i + 1)

theorem findLTFrom_eq (key : ℕ) (l : List ℕ)
    (h : ∃ y ∈ l, ¬ compare_ y key < 0) :
    ∀ i, findLTFrom key i l = some (i + ltRun key l) := by
  induction l with
  | nil => simp at h
  | cons x xs ih =>
    intro i
    simp only [findLTFrom, ltRun]
    by_cases hc : compare_ x key < 0
    · rw [if_pos hc, if_pos hc]
      have hxs : ∃ y ∈ xs, ¬ compare_ y key < 0 := by
        obtain ⟨y, hy, hny⟩ := h
        rcases List.mem_cons.mp hy with rfl | hy
        · exact absurd hc hny
        · exact ⟨y, hy, hny⟩
      rw [ih hxs (i + 1)]
      congr 1
      omega
    · rw [if_neg hc, if_neg hc]
      simp

theorem findLastFrom_eq (l : List ℕ) : ∀ i, findLastFrom i l = i + l.length := by
  induction l with
  | nil => intro i; simp [findLastFrom]
  | cons x xs ih =>
    intro i
    simp only [findLastFrom, List.length_cons, ih]
    omega

theorem findLast_eq (elems : List ℕ) : findLast elems = elems.length := by
  simp [findLast, findLastFrom_eq]

theorem prev_eq (elems : List ℕ) (hs : elems.Pairwise (· < ·)) (i v : ℕ)
    (hget : (chain elems).get? i = some v) (hi : 1 ≤ i) :
    Prev elems i = some (if i = 1 then none else some (i - 1)) := by
  unfold Prev
  rw [hget]
  have hv : elems.get? (i - 1) = some v := by
    cases i with
    | zero => omega
    | succ j => simpa [chain] using hget
  have hmem : v ∈ elems := List.get?_mem hv
  have hlt : findLessThan v elems = some (ltRun v elems) := by
    unfold findLessThan
    rw [findLTFrom_eq v elems ⟨v, hmem, by simp [compare_lt_iff]⟩ 0]
    simp
  have hrun : ltRun v elems = i - 1 := ltRun_eq_index elems hs (i - 1) v hv
  show (match findLessThan v elems with
    | none => none
    | some j => some (if j = 0 then none else some j)) =
      some (if i = 1 then none else some (i - 1))
  rw [hlt, hrun]
  show some (if i - 1 = 0 then none else some (i - 1)) =
    some (if i = 1 then none else some (i - 1))
  by_cases h1 : i = 1
  · simp [h1]
  · rw [if_neg (by omega), if_neg h1]

/-! ## Backward iteration -/

theorem backwardFrom_eq (elems : List ℕ) (hs : elems.Pairwise (· < ·)) :
    ∀ fuel i : ℕ, 1 ≤ i → i ≤ elems.length → i ≤ fuel →
      backwardFrom elems fuel (some i) = some ((elems.take i).reverse) := by
  intro fuel
  induction fuel with
  | zero => intro i h1 _ h3; omega
  | succ fuel ih =>
    intro i h1 h2 h3
    obtain ⟨j, rfl⟩ : ∃ j, i = j + 1 := ⟨i - 1, by omega⟩
    have hjlt : j < elems.length := by omega
    have hget : (chain elems).get? (j + 1) = some elems[j] := by
      simp [chain, List.get?_eq_getElem?, List.getElem?_eq_getElem hjlt]
    simp only [backwardFrom]
    rw [hget, prev_eq elems hs (j + 1) _ hget (by omega)]
    have htake : elems.take (j + 1) = elems.take j ++ [elems[j]] := by
      rw [List.take_succ]
      simp [List.getElem?_eq_getElem hjlt]
    show (backwardFrom elems fuel (if j + 1 = 1 then none else some (j + 1 - 1))).map
        (elems[j] :: ·) = some ((elems.take (j + 1)).reverse)
    by_cases hj : j = 0
    · subst hj
      rw [if_pos rfl]
      rw [show backwardFrom elems fuel none = some [] from by cases fuel <;> rfl]
      rw [htake]
      simp
    · rw [if_neg (by omega)]
      simp only [Nat.add_sub_cancel]
      rw [ih j (by omega) (by omega) (by omega), htake, List.reverse_append]
      rfl

theorem backwardKeys_eq (elems : List ℕ) (hs : elems.Pairwise (· < ·)) :
    backwardKeys elems = some elems.reverse := by
  cases elems with
  | nil => rfl
  | cons x xs =>
    have hlast : SeekToLast (x :: xs) = some (xs.length + 1) := by
      simp [SeekToLast, findLast_eq]
    unfold backwardKeys
    rw [hlast, backwardFrom_eq (x :: xs) hs _ _ (by omega) (by simp) (by simp [chain])]
    rw [List.take_of_length_le (by simp)]

/-! ## Bridging invariant I1 and plain sortedness -/

theorem pairwise_ne_nodup (keys : List ℕ)
    (hnd : keys.Pairwise (fun a b => compare_ a b ≠ 0)) : keys.Nodup :=
  hnd.imp (fun h hab => h ((compare_eq_zero_iff _ _).mpr hab))

theorem chainSorted_pairwise (elems : List ℕ) (hs : chainSorted elems) :
    elems.Pairwise (· < ·) ∧ ∀ x ∈ elems, 0 < x := by
  unfold chainSorted at hs
  have h1 : (chain elems).Chain' (· < ·) :=
    hs.imp (fun a b h => (compare_lt_iff a b).mp h)
  have h2 : (chain elems).Pairwise (· < ·) := List.chain'_iff_pairwise.mp h1
  rw [chain, List.pairwise_cons] at h2
  exact ⟨h2.2, fun x hx => by simpa [headKey] using h2.1 x hx⟩

theorem chainSorted_of (elems : List ℕ) (hp : elems.Pairwise (· < ·))
    (hall : ∀ x ∈ elems, 0 < x) : chainSorted elems := by
  unfold chainSorted
  have h2 : (chain elems).Pairwise (· < ·) := by
    rw [chain, List.pairwise_cons]
    exact ⟨fun x hx => by simpa [headKey] using hall x hx, hp⟩
  exact h2.chain'.imp (fun a b h => (compare_lt_iff a b).mpr h)

theorem get?_lt_of_pairwise (elems : List ℕ) (hp : elems.Pairwise (· < ·))
    (a b va vb : ℕ) (ha : elems.get? a = some va) (hb : elems.get? b = some vb)
    (hab : a < b) : va < vb := by
  rw [List.get?_eq_some] at ha hb
  obtain ⟨hla, hva⟩ := ha
  obtain ⟨hlb, hvb⟩ := hb
  subst hva hvb
  exact List.pairwise_iff_get.mp hp ⟨a, hla⟩ ⟨b, hlb⟩ hab

/-! ## Claims -/

/-- C1: for every sequence of pairwise-distinct keys — each ordered strictly
after the sentinel key, the unstated precondition `Insert` needs (claim C6) —
inserted in any order starting from the empty list, the full forward
iteration (`SeekToFirst` then repeated `Next` until invalid) yields exactly
those keys in strictly ascending comparator order, and the resulting state
satisfies invariant I1 (the chain reachable from `head` is strictly
ascending with no duplicates). -/
theorem insert_seq_iteration_sorted (keys : List ℕ)
    (hnd : keys.Pairwise (fun a b => compare_ a b ≠ 0))
    (hpos : ∀ k ∈ keys, compare_ headKey k < 0) :
    ∃ elems, insertAll keys [] = some elems ∧ chainSorted elems ∧
      (forwardKeys elems).Perm keys ∧
      (forwardKeys elems).Chain' (fun a b => compare_ a b < 0) := by
  obtain ⟨elems, he, hs, hp⟩ := insertAll_sound keys [] (pairwise_ne_nodup keys hnd)
    hpos (fun k _ h => absurd h (List.not_mem_nil k)) List.Pairwise.nil
  have hp' : elems.Perm keys := by simpa using hp
  have hall : ∀ x ∈ elems, 0 < x := fun x hx => by
    have := hpos x (hp'.mem_iff.mp hx)
    rwa [compare_headKey_lt_iff] at this
  refine ⟨elems, he, chainSorted_of elems hs hall, ?_, ?_⟩
  · rw [forwardKeys_eq]
    exact hp'
  · rw [forwardKeys_eq]
    exact hs.chain'.imp (fun a b h => (compare_lt_iff a b).mpr h)

/-- C1 witness at the concrete input [2, 1]. -/
theorem insert_seq_iteration_sorted_witness :
    ∃ elems, insertAll [2, 1] [] = some elems ∧ chainSorted elems ∧
      (forwardKeys elems).Perm [2, 1] ∧
      (forwardKeys elems).Chain' (fun a b => compare_ a b < 0) :=
  insert_seq_iteration_sorted [2, 1] (by decide) (by decide)

/-- C2 counterexample: on the empty list — where no key was ever inserted —
`Contains(0)` returns `true`, because `FindGreaterOrEqual` starts its scan at
the sentinel head itself and the sentinel carries key `T(0)`, which compares
equal to the query key 0.  So `Contains` can report true because of the
sentinel head, for a key that was never inserted. -/
theorem contains_sentinel_key_true : Contains headKey [] = true := by decide

/-- C2 (amended): for every list built by `Insert` under its preconditions,
`Contains(k)` is true for every inserted key `k`; and for every key `k`
ordered strictly after the sentinel key that was never inserted,
`Contains(k)` is false.  (For `k` comparator-equal to the sentinel key
`T(0)`, `Contains` reports true because of the sentinel head — see the
counterexample.) -/
theorem contains_iff_inserted (keys elems : List ℕ) (k : ℕ)
    (hnd : keys.Pairwise (fun a b => compare_ a b ≠ 0))
    (hpos : ∀ x ∈ keys, compare_ headKey x < 0)
    (hins : insertAll keys [] = some elems) :
    (k ∈ keys → Contains k elems = true) ∧
    (compare_ headKey k < 0 → k ∉ keys → Contains k elems = false) := by
  obtain ⟨e, he, hs, hp⟩ := insertAll_sound keys [] (pairwise_ne_nodup keys hnd)
    hpos (fun k' _ h => absurd h (List.not_mem_nil k')) List.Pairwise.nil
  rw [he] at hins
  cases hins
  have hp' : elems.Perm keys := by simpa using hp
  constructor
  · intro hk
    rw [contains_iff_mem k elems (hpos k hk) hs]
    exact hp'.mem_iff.mpr hk
  · intro hk0 hnk
    rw [Bool.eq_false_iff]
    intro hc
    exact hnk (hp'.mem_iff.mp ((contains_iff_mem k elems hk0 hs).mp hc))

/-- C2 witness: key 2 inserted via the sequence [2, 1] is reported present. -/
theorem contains_iff_inserted_witness : Contains 2 [1, 2] = true :=
  (contains_iff_inserted [2, 1] [1, 2] 2 (by decide) (by decide) (by decide)).1
    (by decide)

/-- C6: the sentinel head is constructed with key `T(0)` and that key
participates in every comparator scan; for every key `k` with
`comparator(T(0), k) < 0`, `FindGreaterOrEqual(k, &prev)` assigns `prev` a
non-null node — making the `prev` dereference inside `Insert(k)` safe — and
when `k` is not ordered strictly after the sentinel key, `prev` remains
null (and `Insert(k)` dereferences it, modelled by `none`). -/
theorem insert_prev_safety (elems : List ℕ) (k : ℕ) :
    (compare_ headKey k < 0 →
      (findGreaterOrEqual k elems).2 ≠ none ∧ Insert k elems ≠ none) ∧
    (¬ compare_ headKey k < 0 →
      (findGreaterOrEqual k elems).2 = none ∧ Insert k elems = none) := by
  constructor
  · intro hk
    rw [findGE_snd_chain k elems hk, insert_eq k elems hk]
    simp
  · intro hk
    have h := findGE_chain_not_lt k elems hk
    exact ⟨by rw [h], insert_crash k elems hk⟩

/-- C6 witness: inserting 1 (ordered after the sentinel key 0) is safe on
the empty list. -/
theorem insert_prev_safety_witness :
    (findGreaterOrEqual 1 ([] : List ℕ)).2 ≠ none ∧ Insert 1 [] ≠ none :=
  (insert_prev_safety [] 1).1 (by decide)

/-- C9: on a freshly constructed (empty) list, `Contains(5)` returns false,
`SeekToFirst()` leaves the iterator invalid, and `SeekToLast()` leaves the
iterator invalid. -/
theorem empty_list_queries :
    Contains 5 ([] : List ℕ) = false ∧
    SeekToFirst ([] : List ℕ) = none ∧ Valid (SeekToFirst ([] : List ℕ)) = false ∧
    SeekToLast ([] : List ℕ) = none ∧ Valid (SeekToLast ([] : List ℕ)) = false := by
  decide

/-- C3 counterexample: `Seek` with target equal to the sentinel key, on the
empty list, returns the sentinel head itself (chain index 0) as the query
result, and the iterator is valid there — the head node is not excluded
from the result of every query operation. -/
theorem seek_sentinel_head_result :
    Seek headKey ([] : List ℕ) = some 0 ∧ Valid (Seek headKey ([] : List ℕ)) = true := by
  decide

/-- C3 (amended): in every reachable list state the sentinel head is never
comparator-equal to a stored key, and the head is excluded from the results
of `SeekToFirst`, `SeekToLast` and `Prev`, and from `Contains`/`Seek` for
every query key ordered strictly after the sentinel key.  (For query keys
comparator-≤ the sentinel key, `Seek` and `Contains` do report the head —
see the counterexample.) -/
theorem sentinel_excluded (keys elems : List ℕ)
    (hnd : keys.Pairwise (fun a b => compare_ a b ≠ 0))
    (hpos : ∀ x ∈ keys, compare_ headKey x < 0)
    (hins : insertAll keys [] = some elems) :
    (∀ x ∈ elems, compare_ headKey x ≠ 0) ∧
    SeekToFirst elems ≠ some 0 ∧
    SeekToLast elems ≠ some 0 ∧
    (∀ k, compare_ headKey k < 0 → Seek k elems ≠ some 0) ∧
    (∀ k, compare_ headKey k < 0 → Contains k elems = true → k ∈ elems) ∧
    (∀ i r, Prev elems i = some r → r ≠ some 0) := by
  obtain ⟨e, he, hs, hp⟩ := insertAll_sound keys [] (pairwise_ne_nodup keys hnd)
    hpos (fun k' _ h => absurd h (List.not_mem_nil k')) List.Pairwise.nil
  rw [he] at hins
  cases hins
  have hp' : elems.Perm keys := by simpa using hp
  refine ⟨?_, ?_, ?_, ?_, ?_, ?_⟩
  · intro x hx
    exact (hpos x (hp'.mem_iff.mp hx)).ne
  · unfold SeekToFirst nextIdx
    split <;> simp
  · unfold SeekToLast
    by_cases h : findLast elems = 0
    · simp [h]
    · simp [h]
  · intro k hk
    unfold Seek
    rw [findGE_fst_chain k elems hk]
    split <;> simp
  · intro k hk hc
    exact (contains_iff_mem k elems hk hs).mp hc
  · intro i r hr
    unfold Prev at hr
    cases hg : (chain elems).get? i with
    | none =>
      rw [hg] at hr
      exact Option.noConfusion hr
    | some k =>
      rw [hg] at hr
      have hr2 : (match findLessThan k elems with
        | none => none
        | some j => some (if j = 0 then none else some j)) = some r := hr
      cases hf : findLessThan k elems with
      | none =>
        rw [hf] at hr2
        exact Option.noConfusion hr2
      | some j =>
        rw [hf] at hr2
        have hj := Option.some.inj hr2
        subst hj
        by_cases h0 : j = 0
        · simp [h0]
        · simp [h0]

/-- C3 witness: on the one-element state built by inserting 1, SeekToFirst
does not return the head. -/
theorem sentinel_excluded_witness : SeekToFirst [1] ≠ some 0 :=
  (sentinel_excluded [1] [1] (by decide) (by decide) (by decide)).2.1

/-- C4: the claim states the intended safe behavior, but the code is not
total: on the empty list `FindLessThan(5)` evaluates `x->Next()->key` with
`x->Next() == nullptr` (a null dereference, modelled by the crash marker
`none`), instead of returning the sentinel head (chain index 0) as the
claim requires. -/
theorem findLessThan_empty_crashes :
    findLessThan 5 ([] : List ℕ) = none ∧ findLessThan 5 ([] : List ℕ) ≠ some 0 := by
  decide

/-- C5 counterexample: on the list holding only the key 7, `Seek(0)`
positions the iterator at chain index 0 — the sentinel head, whose key is
`T(0)` and which stores no inserted key — rather than at the smallest
stored key ≥ 0 (which is 7, at chain index 1), and the iterator is not
left invalid. -/
theorem seek_zero_at_sentinel :
    Seek 0 [7] = some 0 ∧ (chain [7]).get? 0 = some headKey ∧
      Valid (Seek 0 [7]) = true ∧ Seek 0 [7] ≠ some 1 := by
  decide

/-- C5 (amended): `Seek(k)` always positions the iterator at the node
returned by `FindGreaterOrEqual(k, null)`; for every target `k` ordered
strictly after the sentinel key, on a list satisfying invariant I1, that
node carries the smallest stored key ≥ k, and the iterator is left
invalid exactly when no stored key is ≥ k.  (For `k` comparator-≤ the
sentinel key, `Seek` positions at the sentinel head — see the
counterexample.) -/
theorem seek_lower_bound (elems : List ℕ) (k : ℕ)
    (hs : chainSorted elems) (hk : compare_ headKey k < 0) :
    Seek k elems = (findGreaterOrEqual k elems).1 ∧
    (∀ i, Seek k elems = some i →
      ∃ v, (chain elems).get? i = some v ∧ v ∈ elems ∧ ¬ compare_ v k < 0 ∧
        ∀ x ∈ elems, ¬ compare_ x k < 0 → ¬ compare_ x v < 0) ∧
    (Seek k elems = none ↔ ∀ x ∈ elems, compare_ x k < 0) := by
  have hp := (chainSorted_pairwise elems hs).1
  refine ⟨rfl, ?_, ?_⟩
  · intro i hi
    unfold Seek at hi
    rw [findGE_fst_chain k elems hk] at hi
    by_cases h : ltRun k elems < elems.length
    · rw [if_pos h] at hi
      cases hi
      cases hv : elems.get? (ltRun k elems) with
      | none =>
        rw [List.get?_eq_none] at hv
        omega
      | some v =>
        refine ⟨v, by simpa [chain] using hv, List.get?_mem hv,
          ltRun_get k elems v hv, ?_⟩
        intro x hx hxk
        obtain ⟨jx, hjx⟩ := List.get?_of_mem hx
        have hge : ltRun k elems ≤ jx := by
          by_contra hlt
          push_neg at hlt
          have htk : (elems.take (ltRun k elems)).get? jx = elems.get? jx := by
            rw [List.get?_eq_getElem?, List.get?_eq_getElem?]
            exact List.getElem?_take_of_lt hlt
          have hmem : x ∈ elems.take (ltRun k elems) :=
            List.get?_mem (by rw [htk, hjx])
          exact hxk (ltRun_take k elems x hmem)
        rcases Nat.eq_or_lt_of_le hge with heq | hlt
        · rw [← heq] at hjx
          rw [hv] at hjx
          cases hjx
          simp [compare_lt_iff]
        · have hvx : v < x := get?_lt_of_pairwise elems hp _ jx v x hv hjx hlt
          rw [compare_lt_iff]
          omega
    · rw [if_neg h] at hi
      exact Option.noConfusion hi
  · unfold Seek
    rw [findGE_fst_chain k elems hk]
    have hle := ltRun_le_length k elems
    by_cases h : ltRun k elems < elems.length
    · rw [if_pos h]
      constructor
      · intro hc
        exact absurd hc (by simp)
      · intro hall
        exact absurd ((ltRun_eq_length_iff k elems).mpr hall) (by omega)
    · rw [if_neg h]
      constructor
      · intro _
        exact (ltRun_eq_length_iff k elems).mp (by omega)
      · intro _
        rfl

/-- C5 witness: Seek(2) on the state [1, 2] lands on a node holding the
smallest stored key ≥ 2. -/
theorem seek_lower_bound_witness :
    ∃ v, (chain [1, 2]).get? 2 = some v ∧ v ∈ [1, 2] ∧ ¬ compare_ v 2 < 0 ∧
      ∀ x ∈ [1, 2], ¬ compare_ x 2 < 0 → ¬ compare_ x v < 0 :=
  (seek_lower_bound [1, 2] 2 (chainSorted_of [1, 2] (by decide) (by decide))
    (by decide)).2.1 2 (by decide)

/-- C7: from every valid iterator position at a stored node of a list
satisfying I1, `Prev()` succeeds (no crash), repositions the iterator at
the stored node with the largest key strictly ordered-before the current
key, and leaves the iterator invalid exactly when the current node is the
first element (`FindLessThan` yields `head`). -/
theorem prev_repositions (elems : List ℕ) (i v : ℕ) (hs : chainSorted elems)
    (hget : (chain elems).get? i = some v) (hi : 1 ≤ i) :
    ∃ r, Prev elems i = some r ∧ (r = none ↔ i = 1) ∧
      ∀ j, r = some j → j = i - 1 ∧
        ∃ w, (chain elems).get? j = some w ∧ w ∈ elems ∧ compare_ w v < 0 ∧
          ∀ x ∈ elems, compare_ x v < 0 → ¬ compare_ w x < 0 := by
  have hp := (chainSorted_pairwise elems hs).1
  refine ⟨_, prev_eq elems hp i v hget hi, ?_, ?_⟩
  · by_cases h1 : i = 1 <;> simp [h1]
  · intro j hj
    by_cases h1 : i = 1
    · rw [if_pos h1] at hj
      exact Option.noConfusion hj
    · rw [if_neg h1] at hj
      obtain rfl : j = i - 1 := (Option.some.inj hj).symm
      refine ⟨rfl, ?_⟩
      obtain ⟨m, rfl⟩ : ∃ m, i = m + 2 := ⟨i - 2, by omega⟩
      have hv : elems.get? (m + 1) = some v := by simpa [chain] using hget
      have hmlt : m < elems.length := by
        have hv2 := hv
        rw [List.get?_eq_some] at hv2
        obtain ⟨hlen, _⟩ := hv2
        omega
      have hw : elems.get? m = some elems[m] := by
        rw [List.get?_eq_getElem?]
        exact List.getElem?_eq_getElem hmlt
      refine ⟨elems[m], by simp [chain], List.get?_mem hw, ?_, ?_⟩
      · rw [compare_lt_iff]
        exact get?_lt_of_pairwise elems hp m (m + 1) _ v hw hv (by omega)
      · intro x hx hxv
        rw [compare_lt_iff] at hxv
        rw [compare_lt_iff]
        obtain ⟨jx, hjx⟩ := List.get?_of_mem hx
        have hjx_lt : jx < m + 1 := by
          by_contra hge
          push_neg at hge
          rcases Nat.eq_or_lt_of_le hge with heq | hlt
          · rw [← heq] at hjx
            rw [hv] at hjx
            cases hjx
            omega
          · have := get?_lt_of_pairwise elems hp (m + 1) jx v x hv hjx hlt
            omega
        intro hwx
        rcases Nat.eq_or_lt_of_le (Nat.le_of_lt_succ hjx_lt) with heq | hlt
        · rw [heq] at hjx
          rw [hw] at hjx
          cases hjx
          omega
        · have := get?_lt_of_pairwise elems hp jx m x elems[m] hjx hw hlt
          omega

/-- C7 witness: on the state [1, 2] with the iterator at the node holding
2 (chain index 2), Prev moves to the node holding 1. -/
theorem prev_repositions_witness :
    ∃ r, Prev [1, 2] 2 = some r ∧ (r = none ↔ (2 : ℕ) = 1) ∧
      ∀ j, r = some j → j = 2 - 1 ∧
        ∃ w, (chain [1, 2]).get? j = some w ∧ w ∈ [1, 2] ∧ compare_ w 2 < 0 ∧
          ∀ x ∈ [1, 2], compare_ x 2 < 0 → ¬ compare_ w x < 0 :=
  prev_repositions [1, 2] 2 2 (chainSorted_of [1, 2] (by decide) (by decide))
    (by decide) (by decide)

/-- C8: for every list built by a sequence of `Insert` calls under the
spec preconditions, the keys visited by `SeekToFirst` then repeated
`Next` until invalid are exactly the reverse of the keys visited by
`SeekToLast` then repeated `Prev` until invalid (and the backward walk
never crashes). -/
theorem backward_reverse_of_forward (keys elems : List ℕ)
    (hnd : keys.Pairwise (fun a b => compare_ a b ≠ 0))
    (hpos : ∀ k ∈ keys, compare_ headKey k < 0)
    (hins : insertAll keys [] = some elems) :
    backwardKeys elems = some (forwardKeys elems).reverse := by
  obtain ⟨e, he, hs, hp⟩ := insertAll_sound keys [] (pairwise_ne_nodup keys hnd)
    hpos (fun k' _ h => absurd h (List.not_mem_nil k')) List.Pairwise.nil
  rw [he] at hins
  cases hins
  rw [forwardKeys_eq, backwardKeys_eq elems hs]

/-- C8 witness at the state built by inserting 2 then 1. -/
theorem backward_reverse_of_forward_witness :
    backwardKeys [1, 2] = some (forwardKeys [1, 2]).reverse :=
  backward_reverse_of_forward [2, 1] [1, 2] (by decide) (by decide) (by decide)

end OrderedList
